import Mathlib

/-!
Shallow embedding of the core pipeline of `definitive_app.py`
(multicharts-helper): moving-average crossover signal generation,
backtest simulation, performance scoring, and grid search.

Modelling conventions:
* a pandas numeric series is a `List ℚ`; prices are the spec's
  "finite positive real" values, represented exactly as rationals;
* a float NaN produced by rolling windows is `Option.none`
  (`movingAverage` is `none` exactly where pandas `rolling(w, min_periods=w)`
  yields NaN); pandas comparisons with NaN are false, mirrored by the
  `optLtB`-family which is false on `none`;
* the Sharpe ratio is the only irrational value of the pipeline:
  `sqrt 252 * mean / sqrt variance`.  It is represented exactly by the
  computable type `SharpeFloat` carrying the mean and the (rational) sample
  variance; `SharpeFloat.toReal` interprets it as the real number the
  Python float denotes, and the order used by the sort is decided on
  the rational key `m * |m| / v` (proved below equivalent to the real order);
* a raised Python exception is `Option.none` at the function's result type
  (`compute_performance` raises `IndexError` on an empty series via
  `equity.iloc[-1]`, hence returns an `Option`);
* `list.sort(key=..., reverse=True)` is a stable descending sort; it is
  modelled by the stable insertion sort `sortDesc`.  On the key sets this
  program produces (within one search either every Sharpe value is NaN, or
  none is) CPython's Timsort coincides with any stable sort.
-/

/-- Pandas `a > b` on two possibly-NaN floats: false when either is NaN. -/
def optGtB : Option ℚ → Option ℚ → Bool
  | some x, some y => decide (y < x)
  | _, _ => false

/-- Pandas `a < b` on two possibly-NaN floats: false when either is NaN. -/
def optLtB : Option ℚ → Option ℚ → Bool
  | some x, some y => decide (x < y)
  | _, _ => false

/-- Pandas `a <= b` on two possibly-NaN floats: false when either is NaN. -/
def optLeB : Option ℚ → Option ℚ → Bool
  | some x, some y => decide (x ≤ y)
  | _, _ => false

/-- Pandas `a >= b` on two possibly-NaN floats: false when either is NaN. -/
def optGeB : Option ℚ → Option ℚ → Bool
  | some x, some y => decide (y ≤ x)
  | _, _ => false

/-- `prices.rolling(window=w, min_periods=w).mean()` at index `i`:
the arithmetic mean of the `w` prices ending at index `i`; `none` (NaN)
while the window is not fully populated (`i + 1 < w`) or `i` is out of
range (a zero-width window never produces a value). -/
def movingAverage (prices : List ℚ) (w i : ℕ) : Option ℚ :=
  if 1 ≤ w ∧ w ≤ i + 1 ∧ i < prices.length then
    some (((prices.drop (i + 1 - w)).take w).sum / (w : ℚ))
  else none

/-- `cross_up = (fast_ma > slow_ma) & (prev_fast <= prev_slow)` at index `i`,
where `prev_* = *_ma.shift(1)` (NaN at index 0, so false there). -/
def crossUp (prices : List ℚ) (fast slow : ℕ) (i : ℕ) : Bool :=
  optGtB (movingAverage prices fast i) (movingAverage prices slow i) &&
    (if i = 0 then false
     else optLeB (movingAverage prices fast (i - 1)) (movingAverage prices slow (i - 1)))

/-- `cross_down = (fast_ma < slow_ma) & (prev_fast >= prev_slow)` at index `i`. -/
def crossDown (prices : List ℚ) (fast slow : ℕ) (i : ℕ) : Bool :=
  optLtB (movingAverage prices fast i) (movingAverage prices slow i) &&
    (if i = 0 then false
     else optGeB (movingAverage prices fast (i - 1)) (movingAverage prices slow (i - 1)))

/-- `moving_average_crossover_signals` of `definitive_app.py`.
The series starts as `pd.Series(0, index=prices.index)`, then
`signal[cross_up] = 1` and `signal[cross_down] = 0` are applied in that
order.  The final `signal.ffill().fillna(0)` is the identity: the series is
integer-valued and holds no NaN at any point, so there is nothing to fill
(this is why the value is simply the per-index result of the two masked
assignments). -/
def moving_average_crossover_signals (prices : List ℚ) (fast slow : ℕ) : List ℤ :=
  (List.range prices.length).map fun i =>
    let base : ℤ := 0
    let afterUp : ℤ := if crossUp prices fast slow i then 1 else base
    let afterDown : ℤ := if crossDown prices fast slow i then 0 else afterUp
    afterDown

/-- `prices.pct_change().fillna(0)`: zero at index 0 (its NaN is filled),
`(p[i] - p[i-1]) / p[i-1]` afterwards. -/
def pct_change (xs : List ℚ) : List ℚ :=
  (List.range xs.length).map fun i =>
    match i with
    | 0 => 0
    | j + 1 => (xs.getD (j + 1) 0 - xs.getD j 0) / xs.getD j 0

/-- Auxiliary accumulator for `cumprod`. -/
def cumprodAux (acc : ℚ) : List ℚ → List ℚ
  | [] => []
  | x :: xs => (acc * x) :: cumprodAux (acc * x) xs

/-- Pandas `Series.cumprod`: running products of the prefixes. -/
def cumprod (xs : List ℚ) : List ℚ := cumprodAux 1 xs

/-- `backtest_signals` of `definitive_app.py`:
`returns = prices.pct_change().fillna(0)`;
`strategy_returns = returns * signal.shift(1).fillna(0)` (the shift puts 0,
via `fillna`, in front: position during bar `i` is `signal[i-1]`);
result `(1 + strategy_returns).cumprod()`. -/
def backtest_signals (prices : List ℚ) (signal : List ℤ) : List ℚ :=
  let returns := pct_change prices
  let strategy_returns := (List.range prices.length).map fun i =>
    returns.getD i 0 * (((if i = 0 then 0 else signal.getD (i - 1) 0) : ℤ) : ℚ)
  cumprod (strategy_returns.map fun r => 1 + r)

/-- Pandas `Series.mean` (only used on non-empty series downstream). -/
def seriesMean (xs : List ℚ) : ℚ := xs.sum / (xs.length : ℚ)

/-- The square of pandas `Series.std()` (`ddof = 1`): the sample variance
with `N - 1` denominator; `none` (NaN std) for fewer than two samples. -/
def sampleVariance (xs : List ℚ) : Option ℚ :=
  if 2 ≤ xs.length then
    some ((xs.map fun x => (x - seriesMean xs) ^ 2).sum / ((xs.length : ℚ) - 1))
  else none

/-- `equity.pct_change().dropna()`: the leading NaN is dropped, leaving
`e[j+1]/e[j] - 1` for each consecutive pair. -/
def equityReturns (equity : List ℚ) : List ℚ :=
  (List.range (equity.length - 1)).map fun j =>
    (equity.getD (j + 1) 0 - equity.getD j 0) / equity.getD j 0

/-- Exact representation of the float value stored in the `sharpe` field:
`nan` is float NaN (std of fewer than two samples),
`zero` is the int `0` of the `else` branch,
`val m v` is `sqrt 252 * m / sqrt v`, where `m` is the mean and `v` the
(positive) sample variance of the equity returns. -/
inductive SharpeFloat where
  | nan : SharpeFloat
  | zero : SharpeFloat
  | val (m v : ℚ) : SharpeFloat
deriving DecidableEq, Repr

/-- Rational comparison key: `x ↦ x * |x|` is strictly monotone, and the
key of `sqrt 252 * m / sqrt v` is `252 * (m * |m| / v)`; dropping the
positive factor 252 preserves the order.  `none` for NaN. -/
def SharpeFloat.key : SharpeFloat → Option ℚ
  | .nan => none
  | .zero => some 0
  | .val m v => some (m * |m| / v)

/-- Python float `<` on two sharpe values: false when either is NaN. -/
def SharpeFloat.ltF (a b : SharpeFloat) : Bool :=
  match a.key, b.key with
  | some x, some y => decide (x < y)
  | _, _ => false

/-- Python float `==` on two sharpe values: false when either is NaN. -/
def SharpeFloat.eqF (a b : SharpeFloat) : Bool :=
  match a.key, b.key with
  | some x, some y => decide (x = y)
  | _, _ => false

/-- The real number a non-NaN sharpe value denotes. -/
noncomputable def SharpeFloat.toReal : SharpeFloat → Option ℝ
  | .nan => none
  | .zero => some 0
  | .val m v => some (Real.sqrt 252 * (m : ℝ) / Real.sqrt (v : ℝ))

/-- `compute_performance` of `definitive_app.py`.
`equity.iloc[-1]` raises `IndexError` on an empty series (`none`).
Otherwise `total_return = equity.iloc[-1] - 1`,
`equity_returns = equity.pct_change().dropna()`, and
`sharpe = sqrt(252) * mean / std if std != 0 else 0`:
a NaN std (fewer than two returns) satisfies `std != 0`, so the formula is
evaluated and yields NaN; a zero std takes the `else` branch. -/
def compute_performance (equity : List ℚ) : Option (ℚ × SharpeFloat) :=
  if equity.isEmpty then none
  else
    let total_return := equity.getLastD 0 - 1
    let r := equityReturns equity
    let sharpe : SharpeFloat :=
      match sampleVariance r with
      | none => .nan
      | some v => if v = 0 then .zero else .val (seriesMean r) v
    some (total_return, sharpe)

/-- The `StrategyPerformance` dataclass of `definitive_app.py`. -/
structure StrategyPerformance where
  fast_period : ℕ
  slow_period : ℕ
  total_return : ℚ
  sharpe : SharpeFloat
  equity : List ℚ
deriving DecidableEq, Repr

/-- Python tuple `<` on the sort key `(p.sharpe, p.total_return)`:
compare the first components with float `==` first, then fall through. -/
def perfKeyLt (p q : StrategyPerformance) : Bool :=
  if SharpeFloat.eqF p.sharpe q.sharpe then decide (p.total_return < q.total_return)
  else SharpeFloat.ltF p.sharpe q.sharpe

/-- Insert `x` into a descending-sorted list, after every strictly greater
element and before everything tied with or smaller than `x` (stability:
`x` comes later in the original list than the elements of `l`). -/
def insertDesc (lt : α → α → Bool) (x : α) : List α → List α
  | [] => [x]
  | y :: ys => if lt x y then y :: insertDesc lt x ys else x :: y :: ys

/-- Stable descending insertion sort, modelling
`list.sort(key=..., reverse=True)`. -/
def sortDesc (lt : α → α → Bool) : List α → List α
  | [] => []
  | x :: xs => insertDesc lt x (sortDesc lt xs)

/-- The (fast, slow) pairs visited by the two nested loops of
`find_best_edges`, in loop order:
`for fast in range(fast_start, fast_end + 1)` outer,
`for slow in range(max(fast + 1, slow_start), slow_end + 1)` inner. -/
def gridPairs (fast_range slow_range : ℕ × ℕ) : List (ℕ × ℕ) :=
  (List.range' fast_range.1 (fast_range.2 + 1 - fast_range.1)).flatMap fun fast =>
    (List.range' (max (fast + 1) slow_range.1)
        (slow_range.2 + 1 - max (fast + 1) slow_range.1)).map fun slow =>
      (fast, slow)

/-- One iteration of the grid loop body: generate the signal, backtest it,
score the equity curve and build the `StrategyPerformance` record
(`none` when `compute_performance` raises). -/
def evalPair (prices : List ℚ) (fast slow : ℕ) : Option StrategyPerformance :=
  let signal := moving_average_crossover_signals prices fast slow
  let equity := backtest_signals prices signal
  (compute_performance equity).map fun p =>
    { fast_period := fast, slow_period := slow,
      total_return := p.1, sharpe := p.2, equity := equity }

/-- `find_best_edges` of `definitive_app.py`: evaluate every grid pair in
loop order (an exception at any pair aborts the search: `none`), stable-sort
descending by the key `(sharpe, total_return)` and keep the first 10. -/
def find_best_edges (prices : List ℚ) (fast_range slow_range : ℕ × ℕ) :
    Option (List StrategyPerformance) :=
  match (gridPairs fast_range slow_range).mapM
      (fun p => evalPair prices p.1 p.2) with
  | none => none
  | some performances => some ((sortDesc perfKeyLt performances).take 10)

/-- The factor list whose running product is the equity curve. -/
def growthFactors (prices : List ℚ) (signal : List ℤ) : List ℚ :=
  (List.range prices.length).map fun i =>
    1 + (pct_change prices).getD i 0 *
      (((if i = 0 then 0 else signal.getD (i - 1) 0) : ℤ) : ℚ)

/-- Well-formedness of a sharpe value as produced by the scorer: the
variance stored in a `val` is positive. -/
def SharpeFloat.WF : SharpeFloat → Prop
  | .val _ v => 0 < v
  | _ => True

/-- Strict lexicographic order on (fast, slow) pairs. -/
def pairLexLt (p q : ℕ × ℕ) : Prop :=
  p.1 < q.1 ∨ (p.1 = q.1 ∧ p.2 < q.2)

/-- Strict lexicographic order on the (fast_period, slow_period) fields. -/
def perfLexLt (r q : StrategyPerformance) : Prop :=
  r.fast_period < q.fast_period ∨
    (r.fast_period = q.fast_period ∧ r.slow_period < q.slow_period)

instance : Inhabited StrategyPerformance :=
  ⟨{ fast_period := 0, slow_period := 0, total_return := 0,
     sharpe := SharpeFloat.nan, equity := [] }⟩

/-! ### Basic list lemmas about the embedding -/

/-- Reading a `(List.range n).map f` list at an in-range index. -/
lemma getD_map_range (f : ℕ → α) {n i : ℕ} (hi : i < n) (d : α) :
    ((List.range n).map f).getD i d = f i := by
  rw [List.getD_eq_getElem?_getD, List.getElem?_map, List.getElem?_range hi]
  rfl

/-- An in-range `getD` is a member of the list. -/
lemma getD_mem_of_lt (l : List α) {i : ℕ} (h : i < l.length) (d : α) :
    l.getD i d ∈ l := by
  rw [List.getD_eq_getElem?_getD, List.getElem?_eq_getElem h]
  exact List.getElem_mem h

lemma length_cumprodAux (a : ℚ) (xs : List ℚ) :
    (cumprodAux a xs).length = xs.length := by
  induction xs generalizing a with
  | nil => rfl
  | cons x xs ih => simpa [cumprodAux] using ih (a * x)

lemma length_cumprod (xs : List ℚ) : (cumprod xs).length = xs.length :=
  length_cumprodAux 1 xs

lemma length_signals (prices : List ℚ) (fast slow : ℕ) :
    (moving_average_crossover_signals prices fast slow).length = prices.length := by
  simp [moving_average_crossover_signals]

lemma length_backtest (prices : List ℚ) (signal : List ℤ) :
    (backtest_signals prices signal).length = prices.length := by
  simp [backtest_signals, length_cumprod]

/-- The running products of `cumprodAux` are the prefix products scaled by
the accumulator. -/
lemma cumprodAux_eq (a : ℚ) (xs : List ℚ) :
    cumprodAux a xs =
      (List.range xs.length).map fun i => a * ((xs.take (i + 1)).prod) := by
  induction xs generalizing a with
  | nil => simp [cumprodAux]
  | cons x xs ih =>
      simp only [cumprodAux, ih (a * x), List.length_cons, List.range_succ_eq_map,
        List.map_cons, List.map_map]
      congr 1
      · simp
      · refine List.map_congr_left fun i _ => ?_
        simp [List.take_succ_cons, mul_assoc, Function.comp]

lemma cumprod_getD (xs : List ℚ) {i : ℕ} (hi : i < xs.length) (d : ℚ) :
    (cumprod xs).getD i d = (xs.take (i + 1)).prod := by
  rw [cumprod, cumprodAux_eq, getD_map_range _ hi, one_mul]

lemma pct_change_getD_zero (xs : List ℚ) (hne : xs ≠ []) :
    (pct_change xs).getD 0 0 = 0 := by
  have h0 : 0 < xs.length := List.length_pos.mpr hne
  rw [pct_change, getD_map_range _ h0]

lemma pct_change_getD_succ (xs : List ℚ) {j : ℕ} (hj : j + 1 < xs.length) :
    (pct_change xs).getD (j + 1) 0 =
      (xs.getD (j + 1) 0 - xs.getD j 0) / xs.getD j 0 := by
  rw [pct_change, getD_map_range _ hj]

lemma backtest_eq_cumprod_growthFactors (prices : List ℚ) (signal : List ℤ) :
    backtest_signals prices signal = cumprod (growthFactors prices signal) := by
  simp only [backtest_signals, growthFactors, List.map_map]
  rfl

lemma growthFactors_getD (prices : List ℚ) (signal : List ℤ) {i : ℕ}
    (hi : i < prices.length) :
    (growthFactors prices signal).getD i 0 =
      1 + (pct_change prices).getD i 0 *
        (((if i = 0 then 0 else signal.getD (i - 1) 0) : ℤ) : ℚ) := by
  rw [growthFactors, getD_map_range _ hi]

lemma length_growthFactors (prices : List ℚ) (signal : List ℤ) :
    (growthFactors prices signal).length = prices.length := by
  simp [growthFactors]

lemma getD_eq_getElem_of_lt (l : List α) {i : ℕ} (h : i < l.length) (d : α) :
    l.getD i d = l[i] := by
  rw [List.getD_eq_getElem?_getD, List.getElem?_eq_getElem h]
  rfl

/-- `1 + (a - b)/b = a/b` for nonzero `b`. -/
lemma one_add_pct (a b : ℚ) (hb : b ≠ 0) : 1 + (a - b) / b = a / b := by
  field_simp

lemma cumprodAux_pos {a : ℚ} (ha : 0 < a) {xs : List ℚ}
    (h : ∀ x ∈ xs, 0 < x) : ∀ y ∈ cumprodAux a xs, 0 < y := by
  induction xs generalizing a with
  | nil => intro y hy; cases hy
  | cons x xs ih =>
      intro y hy
      have hx : 0 < x := h x (List.mem_cons_self x xs)
      rcases List.mem_cons.mp hy with rfl | hy
      · exact mul_pos ha hx
      · exact ih (mul_pos ha hx) (fun z hz => h z (List.mem_cons_of_mem x hz)) y hy

/-! ### C8, C3, C10, C9 -/

/-- C8: for every price series and every (fast, slow) pair, the signal
produced by the signal generator and the equity curve produced by the
backtester each have exactly the length of the price series (the equity
length also for an arbitrary signal, as the backtester ranges over the
price index). -/
theorem c8_lengths (prices : List ℚ) (fast slow : ℕ) (signal : List ℤ) :
    (moving_average_crossover_signals prices fast slow).length = prices.length ∧
    (backtest_signals prices (moving_average_crossover_signals prices fast slow)).length
      = prices.length ∧
    (backtest_signals prices signal).length = prices.length :=
  ⟨length_signals prices fast slow, length_backtest _ _, length_backtest _ _⟩

/-- C3: the equity curve returned by the backtester satisfies
`e[i] = e[i-1] * (1 + r[i] * position[i])` with conceptual `e[-1] = 1`,
where `r[i] = prices[i]/prices[i-1] - 1` for `i ≥ 1`, `r[0] = 0`, and
`position[i] = signal[i-1]` (one-bar lag, `signal[-1]` treated as FLAT),
for every positive price series and signal of equal length. -/
theorem c3_backtest_recurrence (prices : List ℚ) (signal : List ℤ)
    (hpos : ∀ x ∈ prices, 0 < x) (hlen : signal.length = prices.length)
    (i : ℕ) (hi : i < prices.length) :
    (backtest_signals prices signal).getD i 0 =
      (if i = 0 then 1 else (backtest_signals prices signal).getD (i - 1) 0) *
        (1 + (if i = 0 then 0 else prices.getD i 0 / prices.getD (i - 1) 0 - 1) *
          (((if i = 0 then 0 else signal.getD (i - 1) 0) : ℤ) : ℚ)) := by
  have hgf : i < (growthFactors prices signal).length := by
    rw [length_growthFactors]; exact hi
  rw [backtest_eq_cumprod_growthFactors,
    cumprod_getD _ (by rw [length_growthFactors]; exact hi),
    List.prod_take_succ _ i hgf]
  rcases i with _ | j
  · rw [← getD_eq_getElem_of_lt _ hgf 0, growthFactors_getD prices signal hi]
    simp
  · have hj : j < prices.length := Nat.lt_of_succ_lt hi
    have hpj : prices.getD j 0 ≠ 0 :=
      ne_of_gt (hpos _ (getD_mem_of_lt prices hj 0))
    have hne0 : ¬(j + 1 = 0) := Nat.succ_ne_zero j
    rw [← getD_eq_getElem_of_lt _ hgf 0, growthFactors_getD prices signal hi,
      pct_change_getD_succ prices hi]
    simp only [hne0, if_false, Nat.add_sub_cancel]
    rw [cumprod_getD _ (by rw [length_growthFactors]; exact hj)]
    congr 2
    rw [sub_div, div_self hpj]

/-- Witness for C3 at `prices = [1, 2]`, `signal = [1, 0]`, `i = 1`. -/
theorem c3_backtest_recurrence_witness :
    (backtest_signals [1, 2] [1, 0]).getD 1 0 =
      (if (1 : ℕ) = 0 then 1 else (backtest_signals [1, 2] [1, 0]).getD (1 - 1) 0) *
        (1 + (if (1 : ℕ) = 0 then 0
              else ([1, 2] : List ℚ).getD 1 0 / ([1, 2] : List ℚ).getD (1 - 1) 0 - 1) *
          (((if (1 : ℕ) = 0 then 0 else ([1, 0] : List ℤ).getD (1 - 1) 0) : ℤ) : ℚ)) :=
  c3_backtest_recurrence [1, 2] [1, 0] (by decide) (by decide) 1 (by decide)

/-- C10: for a strictly positive price series and a {0,1}-valued signal,
every entry of the equity curve is strictly positive. -/
theorem c10_equity_positive (prices : List ℚ) (signal : List ℤ)
    (hp : ∀ x ∈ prices, 0 < x) (hs : ∀ v ∈ signal, v = 0 ∨ v = 1) :
    ∀ e ∈ backtest_signals prices signal, 0 < e := by
  rw [backtest_eq_cumprod_growthFactors]
  refine cumprodAux_pos one_pos ?_
  intro y hy
  rcases List.mem_map.mp hy with ⟨i, hmem, rfl⟩
  have hi : i < prices.length := List.mem_range.mp hmem
  rcases i with _ | j
  · simp
  · have hj : j < prices.length := Nat.lt_of_succ_lt hi
    have hpj : 0 < prices.getD j 0 := hp _ (getD_mem_of_lt prices hj 0)
    have hpj1 : 0 < prices.getD (j + 1) 0 := hp _ (getD_mem_of_lt prices hi 0)
    simp only [Nat.succ_ne_zero, if_false, Nat.add_sub_cancel]
    rcases Nat.lt_or_ge j signal.length with hjs | hjs
    · rcases hs _ (getD_mem_of_lt signal hjs 0) with h0 | h1
      · rw [pct_change_getD_succ prices hi, h0]; norm_num
      · rw [pct_change_getD_succ prices hi, h1]
        push_cast
        rw [mul_one, one_add_pct _ _ (ne_of_gt hpj)]
        exact div_pos hpj1 hpj
    · rw [List.getD_eq_default _ _ hjs, pct_change_getD_succ prices hi]
      norm_num

/-- Witness for C10 at `prices = [1, 2, 1]`, `signal = [1, 1, 0]`. -/
theorem c10_equity_positive_witness :
    (0 : ℚ) <
      (backtest_signals [1, 2, 1] [1, 1, 0]).getD 0 0 :=
  c10_equity_positive [1, 2, 1] [1, 1, 0] (by decide) (by decide)
    _ (getD_mem_of_lt _ (by decide) 0)

/-- C9: the grid search is deterministic — two calls on equal inputs
return equal ordered result sequences. -/
theorem c9_deterministic (prices₁ prices₂ : List ℚ)
    (fr₁ fr₂ sr₁ sr₂ : ℕ × ℕ)
    (hp : prices₁ = prices₂) (hf : fr₁ = fr₂) (hs : sr₁ = sr₂) :
    find_best_edges prices₁ fr₁ sr₁ = find_best_edges prices₂ fr₂ sr₂ := by
  rw [hp, hf, hs]

/-- Witness for C9 at a concrete input. -/
theorem c9_deterministic_witness :
    find_best_edges [1, 2] (1, 1) (2, 2) = find_best_edges [1, 2] (1, 1) (2, 2) :=
  c9_deterministic [1, 2] [1, 2] (1, 1) (1, 1) (2, 2) (2, 2) rfl rfl rfl

/-! ### Degenerate windows and the empty series (C6, C7, C5, C1) -/

lemma movingAverage_none_of_short (prices : List ℚ) {w : ℕ} (i : ℕ)
    (hw : prices.length < w) : movingAverage prices w i = none := by
  rw [movingAverage, if_neg]
  rintro ⟨-, h2, h3⟩
  omega

lemma optGtB_none_right (a : Option ℚ) : optGtB a none = false := by
  cases a <;> rfl

lemma optLtB_none_right (a : Option ℚ) : optLtB a none = false := by
  cases a <;> rfl

lemma crossUp_eq_false_of_short (prices : List ℚ) (fast : ℕ) {slow : ℕ} (i : ℕ)
    (hs : prices.length < slow) : crossUp prices fast slow i = false := by
  rw [crossUp, movingAverage_none_of_short prices i hs, optGtB_none_right,
    Bool.false_and]

lemma crossDown_eq_false_of_short (prices : List ℚ) (fast : ℕ) {slow : ℕ} (i : ℕ)
    (hs : prices.length < slow) : crossDown prices fast slow i = false := by
  rw [crossDown, movingAverage_none_of_short prices i hs, optLtB_none_right,
    Bool.false_and]

lemma signals_all_flat (prices : List ℚ) (fast : ℕ) {slow : ℕ}
    (hs : prices.length < slow) :
    moving_average_crossover_signals prices fast slow =
      List.replicate prices.length 0 := by
  rw [moving_average_crossover_signals]
  have : ∀ i ∈ List.range prices.length,
      (let base : ℤ := 0
       let afterUp : ℤ := if crossUp prices fast slow i then 1 else base
       let afterDown : ℤ := if crossDown prices fast slow i then 0 else afterUp
       afterDown) = (0 : ℤ) := by
    intro i _
    simp [crossUp_eq_false_of_short prices fast i hs,
      crossDown_eq_false_of_short prices fast i hs]
  rw [List.map_congr_left this]
  simp

lemma getD_replicate_zero (n j : ℕ) : (List.replicate n (0 : ℤ)).getD j 0 = 0 := by
  rcases Nat.lt_or_ge j n with h | h
  · rw [getD_eq_getElem_of_lt _ (by simpa using h),
      List.getElem_replicate]
  · exact List.getD_eq_default _ _ (by simpa using h)

lemma cumprodAux_replicate_one (a : ℚ) (n : ℕ) :
    cumprodAux a (List.replicate n 1) = List.replicate n a := by
  induction n generalizing a with
  | zero => rfl
  | succ n ih =>
      rw [List.replicate_succ, cumprodAux, mul_one, ih, List.replicate_succ]

lemma backtest_flat (prices : List ℚ) :
    backtest_signals prices (List.replicate prices.length 0) =
      List.replicate prices.length 1 := by
  rw [backtest_eq_cumprod_growthFactors, growthFactors]
  have : ∀ i ∈ List.range prices.length,
      (1 + (pct_change prices).getD i 0 *
        (((if i = 0 then 0
           else (List.replicate prices.length (0 : ℤ)).getD (i - 1) 0) : ℤ) : ℚ))
        = (1 : ℚ) := by
    intro i _
    rcases i with _ | j
    · simp
    · simp [getD_replicate_zero]
  rw [List.map_congr_left this]
  have hmap : (List.range prices.length).map (fun _ => (1 : ℚ)) =
      List.replicate prices.length 1 := by
    simp
  rw [hmap, cumprod, cumprodAux_replicate_one]

lemma getLastD_replicate_one_succ (n : ℕ) (d : ℚ) :
    (List.replicate (n + 1) (1 : ℚ)).getLastD d = 1 := by
  induction n generalizing d with
  | zero => rfl
  | succ m ih =>
      rw [List.replicate_succ, List.getLastD_cons]
      exact ih 1

/-- C6: for a non-empty price series and `slow` exceeding the series
length, the signal generator returns an all-FLAT signal (the slow moving
average is undefined everywhere), the equity curve is flat at 1 (zero
return on every bar), and the pair is scored (no exception) with
`total_return = 0`. -/
theorem c6_insufficient_data (prices : List ℚ) (fast slow : ℕ)
    (hne : prices ≠ []) (hslow : prices.length < slow) :
    moving_average_crossover_signals prices fast slow =
      List.replicate prices.length 0 ∧
    backtest_signals prices (moving_average_crossover_signals prices fast slow) =
      List.replicate prices.length 1 ∧
    ∃ sh, compute_performance
        (backtest_signals prices (moving_average_crossover_signals prices fast slow))
      = some (0, sh) := by
  have hsig := signals_all_flat prices fast hslow
  have heq : backtest_signals prices (moving_average_crossover_signals prices fast slow)
      = List.replicate prices.length 1 := by
    rw [hsig, backtest_flat]
  refine ⟨hsig, heq, ?_⟩
  have hn : prices.length ≠ 0 := fun h => hne (List.length_eq_zero.mp h)
  rcases Nat.exists_eq_succ_of_ne_zero hn with ⟨m, hm⟩
  have hEmpty : ¬((List.replicate prices.length (1 : ℚ)).isEmpty = true) := by
    rw [hm, List.replicate_succ]
    simp
  rw [heq, compute_performance, if_neg hEmpty, hm,
    getLastD_replicate_one_succ, sub_self]
  exact ⟨_, rfl⟩

/-- Witness for C6 at `prices = [1, 2]`, `fast = 1`, `slow = 3`. -/
theorem c6_insufficient_data_witness :
    moving_average_crossover_signals [1, 2] 1 3 =
      List.replicate ([1, 2] : List ℚ).length 0 ∧
    backtest_signals [1, 2] (moving_average_crossover_signals [1, 2] 1 3) =
      List.replicate ([1, 2] : List ℚ).length 1 ∧
    ∃ sh, compute_performance
        (backtest_signals [1, 2] (moving_average_crossover_signals [1, 2] 1 3))
      = some (0, sh) :=
  c6_insufficient_data [1, 2] 1 3 (by decide) (by decide)

lemma evalPair_nil (fast slow : ℕ) : evalPair [] fast slow = none := rfl

/-- C7 (amended): on the empty price series the signal generator and the
backtester complete and return empty series, but the performance scorer
raises `IndexError` (`equity.iloc[-1]` on an empty series), so the full
grid search raises mid-search whenever the grid holds at least one pair;
with an empty grid it returns the empty result list. -/
theorem c7_empty_series (fast slow : ℕ) (fr sr : ℕ × ℕ) :
    moving_average_crossover_signals [] fast slow = [] ∧
    backtest_signals [] (moving_average_crossover_signals [] fast slow) = [] ∧
    compute_performance ([] : List ℚ) = none ∧
    find_best_edges [] fr sr = (if gridPairs fr sr = [] then some [] else none) := by
  refine ⟨rfl, rfl, rfl, ?_⟩
  rcases h : gridPairs fr sr with _ | ⟨p, rest⟩
  · rw [find_best_edges, h, if_pos rfl]
    rfl
  · rw [find_best_edges, h, if_neg (by simp)]
    have : (p :: rest).mapM (fun q => evalPair [] q.1 q.2) = none := by
      rw [List.mapM_cons, evalPair_nil]
      rfl
    rw [this]

/-- C7 counterexample to the claim as stated: for the empty price series
the scoring stage does not complete without raising (it raises
`IndexError`, modelled as `none`), and the grid search on a non-empty grid
aborts mid-search instead of yielding a defined output. -/
theorem c7_counterexample :
    compute_performance ([] : List ℚ) = none ∧
    find_best_edges [] (1, 1) (2, 2) = none := by
  constructor
  · rfl
  · rfl

/-- C5 counterexample to the claim as stated: the empty equity curve has
returns without zero sample standard deviation, so the claim's "otherwise"
branch promises the Sharpe formula value, but `compute_performance` raises
`IndexError` (modelled as `none`) instead of returning anything. -/
theorem c5_counterexample : compute_performance ([] : List ℚ) = none ∧
    equityReturns ([] : List ℚ) = [] ∧
    sampleVariance (equityReturns ([] : List ℚ)) ≠ some 0 := by
  refine ⟨rfl, rfl, ?_⟩
  intro h
  cases h

/-- C5 (amended): for every non-empty equity curve, `compute_performance`
returns `total_return = e[last] - 1` together with a sharpe value such
that: a zero sample standard deviation of the recovered returns yields the
defined value 0 (never NaN, never a raised condition); a defined non-zero
sample standard deviation yields exactly
`sqrt 252 * mean(returns) / sqrt(sampleVariance returns)` (the sample,
`N - 1` denominator, standard deviation); and an undefined standard
deviation (fewer than two returns) yields float NaN, the evaluation of the
same formula with a NaN standard deviation.  On the empty equity curve the
scorer raises instead. -/
theorem c5_degenerate_variance (equity : List ℚ) (hne : equity ≠ []) :
    ∃ sh, compute_performance equity = some (equity.getLastD 0 - 1, sh) ∧
      (sampleVariance (equityReturns equity) = some 0 →
        sh = SharpeFloat.zero ∧ sh.toReal = some 0) ∧
      (∀ v, sampleVariance (equityReturns equity) = some v → v ≠ 0 →
        sh = SharpeFloat.val (seriesMean (equityReturns equity)) v ∧
        sh.toReal = some (Real.sqrt 252 * ((seriesMean (equityReturns equity) : ℚ) : ℝ) /
          Real.sqrt ((v : ℚ) : ℝ))) ∧
      (sampleVariance (equityReturns equity) = none → sh = SharpeFloat.nan) := by
  have hCP : compute_performance equity =
      some (equity.getLastD 0 - 1,
        match sampleVariance (equityReturns equity) with
        | none => SharpeFloat.nan
        | some v => if v = 0 then SharpeFloat.zero
                    else SharpeFloat.val (seriesMean (equityReturns equity)) v) := by
    rw [compute_performance, if_neg (by simp [List.isEmpty_iff, hne])]
  rcases h : sampleVariance (equityReturns equity) with _ | v
  · rw [h] at hCP
    refine ⟨SharpeFloat.nan, hCP, ?_, ?_, fun _ => rfl⟩
    · intro h0; exact Option.noConfusion h0
    · intro w hw; exact Option.noConfusion hw
  · rw [h] at hCP
    have hCP2 : compute_performance equity =
        some (equity.getLastD 0 - 1,
          if v = 0 then SharpeFloat.zero
          else SharpeFloat.val (seriesMean (equityReturns equity)) v) := hCP
    by_cases hv : v = 0
    · subst hv
      rw [if_pos rfl] at hCP2
      refine ⟨SharpeFloat.zero, hCP2, fun _ => ⟨rfl, rfl⟩, ?_, ?_⟩
      · intro w hw hw0
        exact absurd (Option.some.inj hw).symm hw0
      · intro h0; exact Option.noConfusion h0
    · rw [if_neg hv] at hCP2
      refine ⟨_, hCP2, ?_, ?_, ?_⟩
      · intro h0; exact absurd (Option.some.inj h0) hv
      · intro w hw hw0
        have hvw := Option.some.inj hw
        subst hvw
        exact ⟨rfl, rfl⟩
      · intro h0; exact Option.noConfusion h0

/-- Witness for C5 at the constant equity curve `[1, 1, 1]` (zero sample
standard deviation). -/
theorem c5_degenerate_variance_witness :
    ∃ sh, compute_performance [1, 1, 1] = some (([1, 1, 1] : List ℚ).getLastD 0 - 1, sh) ∧
      (sampleVariance (equityReturns [1, 1, 1]) = some 0 →
        sh = SharpeFloat.zero ∧ sh.toReal = some 0) ∧
      (∀ v, sampleVariance (equityReturns [1, 1, 1]) = some v → v ≠ 0 →
        sh = SharpeFloat.val (seriesMean (equityReturns [1, 1, 1])) v ∧
        sh.toReal = some (Real.sqrt 252 * ((seriesMean (equityReturns [1, 1, 1]) : ℚ) : ℝ) /
          Real.sqrt ((v : ℚ) : ℝ))) ∧
      (sampleVariance (equityReturns [1, 1, 1]) = none → sh = SharpeFloat.nan) :=
  c5_degenerate_variance [1, 1, 1] (by decide)

/-! ### C1: the signal is never forward-filled -/

/-- C1, evaluation at the failing input `prices = [2,1,2,2,2]`,
`fast = 1`, `slow = 2`.  There is a cross-up at index 2 and no event at
index 3 or 4, so the claimed forward-fill would make indices 3 and 4 LONG
(`[0,0,1,1,1]`).  The code instead produces `[0,0,1,0,0]`: the signal is
initialised to the integer 0 (not NaN), so `ffill().fillna(0)` and the
`signal[cross_down] = 0` assignment are no-ops and LONG survives only at
the cross-up bar itself. -/
theorem c1_no_forward_fill :
    moving_average_crossover_signals [2, 1, 2, 2, 2] 1 2 = [0, 0, 1, 0, 0] ∧
    crossUp [2, 1, 2, 2, 2] 1 2 2 = true ∧
    crossUp [2, 1, 2, 2, 2] 1 2 3 = false ∧
    crossDown [2, 1, 2, 2, 2] 1 2 3 = false ∧
    (moving_average_crossover_signals [2, 1, 2, 2, 2] 1 2).getD 3 0 = 0 := by
  have hsig : moving_average_crossover_signals [2, 1, 2, 2, 2] 1 2 = [0, 0, 1, 0, 0] := by
    norm_num [moving_average_crossover_signals, crossUp, crossDown, movingAverage,
      optGtB, optLtB, optLeB, optGeB, List.range_succ]
  refine ⟨hsig, ?_, ?_, ?_, by rw [hsig]; rfl⟩ <;>
    norm_num [crossUp, crossDown, movingAverage, optGtB, optLtB, optLeB, optGeB]

/-! ### Option-valued `mapM` and the stable sort -/

lemma mapM_option_forall₂ {α β : Type} {f : α → Option β} :
    ∀ {l : List α} {l2 : List β}, l.mapM f = some l2 →
      List.Forall₂ (fun a b => f a = some b) l l2 := by
  intro l
  induction l with
  | nil =>
      intro l2 h
      rw [List.mapM_nil] at h
      cases h
      exact List.Forall₂.nil
  | cons a l ih =>
      intro l2 h
      rw [List.mapM_cons] at h
      rcases hfa : f a with _ | b <;> rw [hfa] at h
      · cases h
      · rcases hml : l.mapM f with _ | bs <;> rw [hml] at h
        · cases h
        · cases h
          exact List.Forall₂.cons hfa (ih hml)

lemma mapM_option_mem {α β : Type} {f : α → Option β} {l : List α} {l2 : List β}
    (h : l.mapM f = some l2) : ∀ b ∈ l2, ∃ a ∈ l, f a = some b := by
  have hF := mapM_option_forall₂ h
  clear h
  induction hF with
  | nil => intro b hb; cases hb
  | cons hab _ ih =>
      intro b hb
      rcases List.mem_cons.mp hb with rfl | hb
      · exact ⟨_, List.mem_cons_self _ _, hab⟩
      · rcases ih b hb with ⟨a, ha, hfa⟩
        exact ⟨a, List.mem_cons_of_mem _ ha, hfa⟩

lemma mem_insertDesc {lt : α → α → Bool} {x a : α} :
    ∀ {l : List α}, a ∈ insertDesc lt x l ↔ a = x ∨ a ∈ l := by
  intro l
  induction l with
  | nil => simp [insertDesc]
  | cons y ys ih =>
      rw [insertDesc]
      by_cases h : lt x y = true
      · rw [if_pos h]
        simp only [List.mem_cons, ih]
        tauto
      · rw [if_neg h]
        simp

lemma mem_sortDesc {lt : α → α → Bool} {a : α} :
    ∀ {l : List α}, a ∈ sortDesc lt l ↔ a ∈ l := by
  intro l
  induction l with
  | nil => simp [sortDesc]
  | cons x xs ih =>
      rw [sortDesc, mem_insertDesc, ih, List.mem_cons]

/-! ### C4: the grid enforces fast < slow by construction -/

lemma gridPairs_fast_lt_slow {fr sr : ℕ × ℕ} {p : ℕ × ℕ}
    (h : p ∈ gridPairs fr sr) : p.1 < p.2 := by
  rcases List.mem_flatMap.mp h with ⟨fast, -, hmem⟩
  rcases List.mem_map.mp hmem with ⟨slow, hslow, rfl⟩
  have := (List.mem_range'_1.mp hslow).1
  simp only []
  omega

lemma evalPair_fields {prices : List ℚ} {fast slow : ℕ} {r : StrategyPerformance}
    (h : evalPair prices fast slow = some r) :
    r.fast_period = fast ∧ r.slow_period = slow := by
  rw [evalPair] at h
  rcases hcp : compute_performance (backtest_signals prices
      (moving_average_crossover_signals prices fast slow)) with _ | pr <;>
    rw [hcp] at h
  · cases h
  · cases h
    exact ⟨rfl, rfl⟩

/-- C4: every result ever produced by `find_best_edges` satisfies
`fast_period < slow_period`, for all ranges, including overlapping or
inverted ones, because the inner loop starts at `max(fast+1, slow_lo)`. -/
theorem c4_fast_lt_slow (prices : List ℚ) (fr sr : ℕ × ℕ)
    (res : List StrategyPerformance) (r : StrategyPerformance)
    (hres : find_best_edges prices fr sr = some res) (hr : r ∈ res) :
    r.fast_period < r.slow_period := by
  rw [find_best_edges] at hres
  rcases hM : (gridPairs fr sr).mapM (fun p => evalPair prices p.1 p.2)
      with _ | perfs <;> rw [hM] at hres
  · cases hres
  · cases hres
    have hr2 : r ∈ perfs := mem_sortDesc.mp (List.mem_of_mem_take hr)
    rcases mapM_option_mem hM r hr2 with ⟨p, hp, hev⟩
    rcases evalPair_fields hev with ⟨hf, hs⟩
    rw [hf, hs]
    exact gridPairs_fast_lt_slow hp

set_option maxHeartbeats 1000000 in
/-- Witness for C4 at `prices = [1]`, ranges `(1,1)` and `(2,2)`. -/
theorem c4_fast_lt_slow_witness :
    ({ fast_period := 1, slow_period := 2, total_return := 0,
       sharpe := SharpeFloat.nan, equity := [1] } : StrategyPerformance).fast_period <
    ({ fast_period := 1, slow_period := 2, total_return := 0,
       sharpe := SharpeFloat.nan, equity := [1] } : StrategyPerformance).slow_period :=
  c4_fast_lt_slow [1] (1, 1) (2, 2)
    [{ fast_period := 1, slow_period := 2, total_return := 0,
       sharpe := SharpeFloat.nan, equity := [1] }]
    { fast_period := 1, slow_period := 2, total_return := 0,
      sharpe := SharpeFloat.nan, equity := [1] }
    (by norm_num [find_best_edges, gridPairs, evalPair, backtest_signals,
      moving_average_crossover_signals, crossUp, crossDown, movingAverage,
      optGtB, optLtB, optLeB, optGeB, pct_change, cumprod, cumprodAux,
      compute_performance, equityReturns, sampleVariance, seriesMean,
      sortDesc, insertDesc, SharpeFloat.ltF, SharpeFloat.eqF, SharpeFloat.key,
      perfKeyLt, List.range_succ, List.range', List.mapM.loop])
    (List.mem_singleton.mpr rfl)

/-! ### The rational sort key decides the real Sharpe order (C2) -/

lemma mulAbs_strictMono : StrictMono (fun x : ℝ => x * |x|) := by
  intro a b hab
  simp only []
  rcases le_or_lt 0 a with ha | ha
  · have hb : 0 < b := lt_of_le_of_lt ha hab
    rw [abs_of_nonneg ha, abs_of_pos hb]
    exact mul_self_lt_mul_self ha hab
  · rcases le_or_lt 0 b with hb | hb
    · have h1 : a * |a| < 0 := by
        rw [abs_of_neg ha]
        nlinarith
      have h2 : 0 ≤ b * |b| := mul_nonneg hb (abs_nonneg b)
      exact lt_of_lt_of_le h1 h2
    · rw [abs_of_neg ha, abs_of_neg hb]
      nlinarith

lemma sharpe_mulAbs (m v : ℚ) (hv : 0 < v) :
    (Real.sqrt 252 * (m : ℝ) / Real.sqrt (v : ℝ)) *
      |Real.sqrt 252 * (m : ℝ) / Real.sqrt (v : ℝ)| =
      252 * ((m * |m| / v : ℚ) : ℝ) := by
  have hv' : (0 : ℝ) < (v : ℝ) := by exact_mod_cast hv
  have habs : |Real.sqrt 252 * (m : ℝ) / Real.sqrt (v : ℝ)| =
      Real.sqrt 252 * |(m : ℝ)| / Real.sqrt (v : ℝ) := by
    rw [abs_div, abs_mul, abs_of_nonneg (Real.sqrt_nonneg _),
      abs_of_nonneg (Real.sqrt_nonneg _)]
  rw [habs]
  have hcast : ((m * |m| / v : ℚ) : ℝ) = (m : ℝ) * |(m : ℝ)| / (v : ℝ) := by
    push_cast [Rat.cast_abs]
    ring
  rw [hcast]
  have h1 : Real.sqrt 252 * Real.sqrt 252 = 252 :=
    Real.mul_self_sqrt (by norm_num)
  have h2 : Real.sqrt (v : ℝ) * Real.sqrt (v : ℝ) = (v : ℝ) :=
    Real.mul_self_sqrt (le_of_lt hv')
  calc Real.sqrt 252 * (m : ℝ) / Real.sqrt (v : ℝ) *
        (Real.sqrt 252 * |(m : ℝ)| / Real.sqrt (v : ℝ))
      = (Real.sqrt 252 * Real.sqrt 252) * ((m : ℝ) * |(m : ℝ)|) /
          (Real.sqrt (v : ℝ) * Real.sqrt (v : ℝ)) := by ring
    _ = 252 * ((m : ℝ) * |(m : ℝ)|) / (v : ℝ) := by rw [h1, h2]
    _ = 252 * ((m : ℝ) * |(m : ℝ)| / (v : ℝ)) := by ring

lemma sharpeReal_lt_iff (m₁ v₁ m₂ v₂ : ℚ) (h₁ : 0 < v₁) (h₂ : 0 < v₂) :
    (Real.sqrt 252 * (m₁ : ℝ) / Real.sqrt (v₁ : ℝ) <
      Real.sqrt 252 * (m₂ : ℝ) / Real.sqrt (v₂ : ℝ)) ↔
    m₁ * |m₁| / v₁ < m₂ * |m₂| / v₂ := by
  rw [← mulAbs_strictMono.lt_iff_lt, sharpe_mulAbs _ _ h₁, sharpe_mulAbs _ _ h₂,
    mul_lt_mul_left (by norm_num : (0 : ℝ) < 252)]
  exact_mod_cast Iff.rfl

lemma sharpeReal_eq_iff (m₁ v₁ m₂ v₂ : ℚ) (h₁ : 0 < v₁) (h₂ : 0 < v₂) :
    (Real.sqrt 252 * (m₁ : ℝ) / Real.sqrt (v₁ : ℝ) =
      Real.sqrt 252 * (m₂ : ℝ) / Real.sqrt (v₂ : ℝ)) ↔
    m₁ * |m₁| / v₁ = m₂ * |m₂| / v₂ := by
  constructor
  · intro h
    have := congrArg (fun x : ℝ => x * |x|) h
    simp only [] at this
    rw [sharpe_mulAbs _ _ h₁, sharpe_mulAbs _ _ h₂] at this
    have h252 := mul_left_cancel₀ (by norm_num : (252 : ℝ) ≠ 0) this
    exact_mod_cast h252
  · intro h
    have : ((m₁ * |m₁| / v₁ : ℚ) : ℝ) = ((m₂ * |m₂| / v₂ : ℚ) : ℝ) := by
      exact_mod_cast h
    have h1 := sharpe_mulAbs m₁ v₁ h₁
    have h2 := sharpe_mulAbs m₂ v₂ h₂
    apply mulAbs_strictMono.injective
    simp only []
    rw [h1, h2, this]

/-- Every non-NaN well-formed sharpe value has a rational sort key and a
real value, and they are related by the `x * |x|` transform. -/
lemma SharpeFloat.exists_mv {s : SharpeFloat} (hWF : s.WF) (hnan : s ≠ .nan) :
    ∃ m v : ℚ, 0 < v ∧ s.key = some (m * |m| / v) ∧
      s.toReal = some (Real.sqrt 252 * (m : ℝ) / Real.sqrt (v : ℝ)) := by
  cases s with
  | nan => exact absurd rfl hnan
  | zero =>
      refine ⟨0, 1, one_pos, by simp [SharpeFloat.key], ?_⟩
      simp [SharpeFloat.toReal]
  | val m v => exact ⟨m, v, hWF, rfl, rfl⟩

/-! ### Sortedness and stability of the descending insertion sort -/

lemma sorted_insertDesc {lt : α → α → Bool} {P : α → Prop}
    (hasym : ∀ a b, P a → P b → lt a b = true → lt b a = false)
    (htr : ∀ a b c, P a → P b → P c →
      lt a b = false → lt b c = false → lt a c = false)
    {x : α} (hx : P x) :
    ∀ {l : List α}, (∀ y ∈ l, P y) →
      l.Pairwise (fun a b => lt a b = false) →
      (insertDesc lt x l).Pairwise (fun a b => lt a b = false) := by
  intro l
  induction l with
  | nil =>
      intro _ _
      exact List.pairwise_singleton _ _
  | cons y ys ih =>
      intro hP hsort
      rcases List.pairwise_cons.mp hsort with ⟨hy, hys⟩
      rw [insertDesc]
      by_cases h : lt x y = true
      · rw [if_pos h]
        refine List.pairwise_cons.mpr
          ⟨?_, ih (fun z hz => hP z (List.mem_cons_of_mem _ hz)) hys⟩
        intro z hz
        rcases mem_insertDesc.mp hz with rfl | hz
        · exact hasym z y hx (hP y (List.mem_cons_self _ _)) h
        · exact hy z hz
      · rw [if_neg h]
        have hxy : lt x y = false := Bool.eq_false_iff.mpr h
        refine List.pairwise_cons.mpr ⟨?_, hsort⟩
        intro z hz
        rcases List.mem_cons.mp hz with rfl | hz
        · exact hxy
        · exact htr x y z hx (hP y (List.mem_cons_self _ _))
            (hP z (List.mem_cons_of_mem _ hz)) hxy (hy z hz)

lemma sorted_sortDesc {lt : α → α → Bool} {P : α → Prop}
    (hasym : ∀ a b, P a → P b → lt a b = true → lt b a = false)
    (htr : ∀ a b c, P a → P b → P c →
      lt a b = false → lt b c = false → lt a c = false) :
    ∀ {l : List α}, (∀ y ∈ l, P y) →
      (sortDesc lt l).Pairwise (fun a b => lt a b = false) := by
  intro l
  induction l with
  | nil => intro _; exact List.Pairwise.nil
  | cons x xs ih =>
      intro hP
      rw [sortDesc]
      exact sorted_insertDesc hasym htr (hP x (List.mem_cons_self _ _))
        (fun y hy => hP y (List.mem_cons_of_mem _ (mem_sortDesc.mp hy)))
        (ih fun y hy => hP y (List.mem_cons_of_mem _ hy))

lemma pairwise_insertDesc {lt : α → α → Bool} {T : α → α → Prop} {x : α} :
    ∀ {l : List α}, l.Pairwise T →
      (∀ y ∈ l, T x y ∧ (lt x y = true → T y x)) →
      (insertDesc lt x l).Pairwise T := by
  intro l
  induction l with
  | nil =>
      intro _ _
      exact List.pairwise_singleton _ _
  | cons y ys ih =>
      intro hT hx
      rcases List.pairwise_cons.mp hT with ⟨hy, hys⟩
      rw [insertDesc]
      by_cases h : lt x y = true
      · rw [if_pos h]
        refine List.pairwise_cons.mpr
          ⟨?_, ih hys fun z hz => hx z (List.mem_cons_of_mem _ hz)⟩
        intro z hz
        rcases mem_insertDesc.mp hz with rfl | hz
        · exact (hx y (List.mem_cons_self _ _)).2 h
        · exact hy z hz
      · rw [if_neg h]
        exact List.pairwise_cons.mpr
          ⟨fun z hz => by
            rcases List.mem_cons.mp hz with rfl | hz
            · exact (hx z (List.mem_cons_self _ _)).1
            · exact (hx z (List.mem_cons_of_mem _ hz)).1, hT⟩

lemma pairwise_sortDesc {lt : α → α → Bool} {T : α → α → Prop} :
    ∀ {l : List α}, l.Pairwise (fun a b => T a b ∧ (lt a b = true → T b a)) →
      (sortDesc lt l).Pairwise T := by
  intro l
  induction l with
  | nil => intro _; exact List.Pairwise.nil
  | cons x xs ih =>
      intro hT
      rcases List.pairwise_cons.mp hT with ⟨hx, hxs⟩
      rw [sortDesc]
      exact pairwise_insertDesc (ih hxs)
        (fun y hy => hx y (mem_sortDesc.mp hy))

/-! ### The tuple key order on results -/

lemma SharpeFloat.key_some {s : SharpeFloat} (h : s ≠ .nan) : ∃ k, s.key = some k := by
  cases s with
  | nan => exact absurd rfl h
  | zero => exact ⟨0, rfl⟩
  | val m v => exact ⟨m * |m| / v, rfl⟩

lemma perfKeyLt_keys {a b : StrategyPerformance} {ka kb : ℚ}
    (ha : a.sharpe.key = some ka) (hb : b.sharpe.key = some kb) :
    perfKeyLt a b = (if ka = kb then decide (a.total_return < b.total_return)
                     else decide (ka < kb)) := by
  have heq : SharpeFloat.eqF a.sharpe b.sharpe = decide (ka = kb) := by
    simp only [SharpeFloat.eqF, ha, hb]
  have hlt : SharpeFloat.ltF a.sharpe b.sharpe = decide (ka < kb) := by
    simp only [SharpeFloat.ltF, ha, hb]
  rw [perfKeyLt, heq, hlt]
  by_cases h : ka = kb
  · simp [h]
  · simp [h]

lemma perfKeyLt_false_iff {a b : StrategyPerformance} {ka kb : ℚ}
    (ha : a.sharpe.key = some ka) (hb : b.sharpe.key = some kb) :
    perfKeyLt a b = false ↔
      (kb < ka ∨ (ka = kb ∧ b.total_return ≤ a.total_return)) := by
  rw [perfKeyLt_keys ha hb]
  by_cases h : ka = kb
  · subst h
    simp [lt_irrefl, not_lt]
  · simp only [if_neg h, decide_eq_false_iff_not, not_lt]
    constructor
    · intro hle
      exact Or.inl (lt_of_le_of_ne hle (fun hc => h hc.symm))
    · rintro (hlt2 | ⟨heq2, -⟩)
      · exact le_of_lt hlt2
      · exact absurd heq2 h

lemma perfKeyLt_asym {a b : StrategyPerformance}
    (ha : a.sharpe ≠ .nan) (hb : b.sharpe ≠ .nan) :
    perfKeyLt a b = true → perfKeyLt b a = false := by
  rcases SharpeFloat.key_some ha with ⟨ka, hka⟩
  rcases SharpeFloat.key_some hb with ⟨kb, hkb⟩
  intro h
  rw [perfKeyLt_keys hka hkb] at h
  rw [perfKeyLt_false_iff hkb hka]
  by_cases hk : ka = kb
  · rw [if_pos hk] at h
    simp only [decide_eq_true_eq] at h
    exact Or.inr ⟨hk.symm, le_of_lt h⟩
  · rw [if_neg hk] at h
    simp only [decide_eq_true_eq] at h
    exact Or.inl h

lemma perfKeyLt_negtrans {a b c : StrategyPerformance}
    (ha : a.sharpe ≠ .nan) (hb : b.sharpe ≠ .nan) (hc : c.sharpe ≠ .nan) :
    perfKeyLt a b = false → perfKeyLt b c = false → perfKeyLt a c = false := by
  rcases SharpeFloat.key_some ha with ⟨ka, hka⟩
  rcases SharpeFloat.key_some hb with ⟨kb, hkb⟩
  rcases SharpeFloat.key_some hc with ⟨kc, hkc⟩
  intro h1 h2
  rw [perfKeyLt_false_iff hka hkb] at h1
  rw [perfKeyLt_false_iff hkb hkc] at h2
  rw [perfKeyLt_false_iff hka hkc]
  rcases h1 with h1 | ⟨h1e, h1t⟩
  · rcases h2 with h2 | ⟨h2e, h2t⟩
    · exact Or.inl (lt_trans h2 h1)
    · exact Or.inl (h2e ▸ h1)
  · rcases h2 with h2 | ⟨h2e, h2t⟩
    · exact Or.inl (h1e ▸ h2)
    · exact Or.inr ⟨h1e.trans h2e, le_trans h2t h1t⟩

/-! ### Sharpe values produced by the scorer are well-formed -/

lemma compute_performance_some (equity : List ℚ) (hne : equity ≠ []) :
    compute_performance equity =
      some (equity.getLastD 0 - 1,
        match sampleVariance (equityReturns equity) with
        | none => SharpeFloat.nan
        | some v => if v = 0 then SharpeFloat.zero
                    else SharpeFloat.val (seriesMean (equityReturns equity)) v) := by
  rw [compute_performance, if_neg (by simp [List.isEmpty_iff, hne])]

lemma length_equityReturns (equity : List ℚ) :
    (equityReturns equity).length = equity.length - 1 := by
  simp [equityReturns]

lemma sampleVariance_nonneg {xs : List ℚ} {v : ℚ}
    (h : sampleVariance xs = some v) : 0 ≤ v := by
  rw [sampleVariance] at h
  by_cases hl : 2 ≤ xs.length
  · rw [if_pos hl] at h
    cases h
    refine div_nonneg ?_ ?_
    · refine List.sum_nonneg ?_
      intro x hx
      rcases List.mem_map.mp hx with ⟨y, -, rfl⟩
      exact sq_nonneg _
    · have : (2 : ℚ) ≤ (xs.length : ℚ) := by exact_mod_cast hl
      linarith
  · rw [if_neg hl] at h
    cases h

lemma compute_performance_sharpe_props {equity : List ℚ} {tr : ℚ} {sh : SharpeFloat}
    (h : compute_performance equity = some (tr, sh)) :
    sh.WF ∧ (3 ≤ equity.length → sh ≠ SharpeFloat.nan) := by
  have hne : equity ≠ [] := by
    intro h0
    subst h0
    simp [compute_performance] at h
  have hCP := compute_performance_some equity hne
  rw [h] at hCP
  have hsh := (Prod.mk.injEq _ _ _ _).mp (Option.some.inj hCP) |>.2
  rcases hv : sampleVariance (equityReturns equity) with _ | v
  · rw [hv] at hsh
    subst hsh
    refine ⟨trivial, ?_⟩
    intro h3
    have hlen2 : 2 ≤ (equityReturns equity).length := by
      rw [length_equityReturns]
      omega
    rw [sampleVariance, if_pos hlen2] at hv
    cases hv
  · rw [hv] at hsh
    have hsh2 : sh = if v = 0 then SharpeFloat.zero
        else SharpeFloat.val (seriesMean (equityReturns equity)) v := hsh
    by_cases hz : v = 0
    · subst hz
      rw [if_pos rfl] at hsh2
      subst hsh2
      exact ⟨trivial, fun _ => by simp⟩
    · rw [if_neg hz] at hsh2
      subst hsh2
      refine ⟨?_, fun _ => by simp⟩
      have hnn := sampleVariance_nonneg hv
      exact lt_of_le_of_ne hnn (Ne.symm hz)

lemma evalPair_eq {prices : List ℚ} {fast slow : ℕ} {r : StrategyPerformance}
    (h : evalPair prices fast slow = some r) :
    ∃ tr sh, compute_performance
        (backtest_signals prices (moving_average_crossover_signals prices fast slow))
      = some (tr, sh) ∧
      r = { fast_period := fast, slow_period := slow, total_return := tr,
            sharpe := sh,
            equity := backtest_signals prices
              (moving_average_crossover_signals prices fast slow) } := by
  rw [evalPair] at h
  rcases hcp : compute_performance (backtest_signals prices
      (moving_average_crossover_signals prices fast slow)) with _ | pr <;>
    rw [hcp] at h
  · cases h
  · cases h
    exact ⟨pr.1, pr.2, by simp [hcp], rfl⟩

lemma evalPair_isSome {prices : List ℚ} (hne : prices ≠ []) (fast slow : ℕ) :
    ∃ r, evalPair prices fast slow = some r := by
  have hbne : backtest_signals prices (moving_average_crossover_signals prices fast slow)
      ≠ [] := by
    intro h0
    apply hne
    have := congrArg List.length h0
    rw [length_backtest] at this
    exact List.length_eq_zero.mp this
  rw [evalPair, compute_performance_some _ hbne]
  exact ⟨_, rfl⟩

/-! ### The grid is enumerated in lexicographic (fast, slow) order -/

lemma pairwise_flatMap {α β : Type} {R : β → β → Prop} {l : List α} {g : α → List β}
    (h1 : ∀ a ∈ l, (g a).Pairwise R)
    (h2 : l.Pairwise fun a b => ∀ x ∈ g a, ∀ y ∈ g b, R x y) :
    (l.flatMap g).Pairwise R := by
  induction l with
  | nil => simp
  | cons a l ih =>
      rw [List.flatMap_cons, List.pairwise_append]
      rcases List.pairwise_cons.mp h2 with ⟨h2a, h2l⟩
      refine ⟨h1 a (List.mem_cons_self _ _),
        ih (fun b hb => h1 b (List.mem_cons_of_mem _ hb)) h2l, ?_⟩
      intro x hx y hy
      rcases List.mem_flatMap.mp hy with ⟨b, hb, hyb⟩
      exact h2a b hb x hx y hyb

lemma gridPairs_pairwise (fr sr : ℕ × ℕ) : (gridPairs fr sr).Pairwise pairLexLt := by
  rw [gridPairs]
  refine pairwise_flatMap ?_ ?_
  · intro fast _
    rw [List.pairwise_map]
    exact (List.pairwise_lt_range' _ _).imp fun h => Or.inr ⟨rfl, h⟩
  · refine (List.pairwise_lt_range' _ _).imp ?_
    intro a b hab x hx y hy
    rcases List.mem_map.mp hx with ⟨s, -, rfl⟩
    rcases List.mem_map.mp hy with ⟨t, -, rfl⟩
    exact Or.inl hab

lemma forall₂_exists_left {α β : Type} {R : α → β → Prop} :
    ∀ {l : List α} {l2 : List β}, List.Forall₂ R l l2 →
      ∀ b ∈ l2, ∃ a ∈ l, R a b := by
  intro l l2 hF
  induction hF with
  | nil => intro b hb; cases hb
  | cons hab _ ih =>
      intro b hb
      rcases List.mem_cons.mp hb with rfl | hb
      · exact ⟨_, List.mem_cons_self _ _, hab⟩
      · rcases ih b hb with ⟨a, ha, hR⟩
        exact ⟨a, List.mem_cons_of_mem _ ha, hR⟩

lemma forall₂_pairwise {α β : Type} {R : α → β → Prop} {S : α → α → Prop}
    {T : β → β → Prop}
    (hconv : ∀ a b a2 b2, R a a2 → R b b2 → S a b → T a2 b2) :
    ∀ {l : List α} {l2 : List β}, List.Forall₂ R l l2 →
      l.Pairwise S → l2.Pairwise T := by
  intro l l2 hF
  induction hF with
  | nil => intro _; exact List.Pairwise.nil
  | cons hab hF ih =>
      intro hS
      rcases List.pairwise_cons.mp hS with ⟨hS1, hS2⟩
      refine List.pairwise_cons.mpr ⟨?_, ih hS2⟩
      intro b2 hb2
      rcases forall₂_exists_left hF b2 hb2 with ⟨b, hb, hRb⟩
      exact hconv _ b _ b2 hab hRb (hS1 b hb)

lemma perfs_pairwise_lex {prices : List ℚ} {fr sr : ℕ × ℕ}
    {perfs : List StrategyPerformance}
    (hM : (gridPairs fr sr).mapM (fun p => evalPair prices p.1 p.2) = some perfs) :
    perfs.Pairwise perfLexLt := by
  refine forall₂_pairwise ?_ (mapM_option_forall₂ hM) (gridPairs_pairwise fr sr)
  intro p q r s hpr hqs hlex
  rcases evalPair_fields hpr with ⟨hf1, hs1⟩
  rcases evalPair_fields hqs with ⟨hf2, hs2⟩
  rw [perfLexLt, hf1, hs1, hf2, hs2]
  exact hlex

lemma perfs_sharpe_props {prices : List ℚ} {fr sr : ℕ × ℕ}
    {perfs : List StrategyPerformance} (h3 : 3 ≤ prices.length)
    (hM : (gridPairs fr sr).mapM (fun p => evalPair prices p.1 p.2) = some perfs) :
    ∀ r ∈ perfs, r.sharpe.WF ∧ r.sharpe ≠ SharpeFloat.nan := by
  intro r hr
  rcases mapM_option_mem hM r hr with ⟨p, -, hev⟩
  rcases evalPair_eq hev with ⟨tr, sh, hcp, rfl⟩
  have hprops := compute_performance_sharpe_props hcp
  have hlen : 3 ≤ (backtest_signals prices
      (moving_average_crossover_signals prices p.1 p.2)).length := by
    rw [length_backtest]
    exact h3
  exact ⟨hprops.1, hprops.2 hlen⟩

lemma mapM_option_isSome {α β : Type} {f : α → Option β} :
    ∀ {l : List α}, (∀ a ∈ l, ∃ b, f a = some b) → ∃ l2, l.mapM f = some l2 := by
  intro l
  induction l with
  | nil => intro _; exact ⟨[], rfl⟩
  | cons a l ih =>
      intro h
      rcases h a (List.mem_cons_self _ _) with ⟨b, hb⟩
      rcases ih (fun x hx => h x (List.mem_cons_of_mem _ hx)) with ⟨l2, hl2⟩
      refine ⟨b :: l2, ?_⟩
      rw [List.mapM_cons, hb, hl2]
      rfl

lemma eqF_keys {s t : SharpeFloat} {ks kt : ℚ}
    (hs : s.key = some ks) (ht : t.key = some kt) :
    SharpeFloat.eqF s t = decide (ks = kt) := by
  simp only [SharpeFloat.eqF, hs, ht]

/-- C2 (amended to positive price series of length at least 3, so that
every pair's Sharpe value is a number rather than NaN): the grid search
evaluates every pair, returns the stable descending sort by the tuple
`(sharpe, total_return)` truncated to the first 10; adjacent results are
monotone (`sharpe` strictly greater, or equal `sharpe` and `total_return`
not smaller); and among results with identical `(sharpe, total_return)`
keys the pair with smaller `fast` (and, within that, smaller `slow`)
appears first. -/
theorem c2_ranking (prices : List ℚ) (fr sr : ℕ × ℕ)
    (hpos : ∀ x ∈ prices, 0 < x) (hlen : 3 ≤ prices.length) :
    ∃ perfs,
      (gridPairs fr sr).mapM (fun p => evalPair prices p.1 p.2) = some perfs ∧
      find_best_edges prices fr sr = some ((sortDesc perfKeyLt perfs).take 10) ∧
      ((sortDesc perfKeyLt perfs).take 10).length ≤ 10 ∧
      (∀ i, i + 1 < ((sortDesc perfKeyLt perfs).take 10).length →
        ∃ x y : ℝ,
          (((sortDesc perfKeyLt perfs).take 10).getD i default).sharpe.toReal = some x ∧
          (((sortDesc perfKeyLt perfs).take 10).getD (i + 1) default).sharpe.toReal = some y ∧
          (y < x ∨ (x = y ∧
            (((sortDesc perfKeyLt perfs).take 10).getD (i + 1) default).total_return ≤
              (((sortDesc perfKeyLt perfs).take 10).getD i default).total_return))) ∧
      (∀ i j, i < j → j < ((sortDesc perfKeyLt perfs).take 10).length →
        SharpeFloat.eqF (((sortDesc perfKeyLt perfs).take 10).getD i default).sharpe
          (((sortDesc perfKeyLt perfs).take 10).getD j default).sharpe = true →
        (((sortDesc perfKeyLt perfs).take 10).getD i default).total_return =
          (((sortDesc perfKeyLt perfs).take 10).getD j default).total_return →
        perfLexLt (((sortDesc perfKeyLt perfs).take 10).getD i default)
          (((sortDesc perfKeyLt perfs).take 10).getD j default)) := by
  have hne : prices ≠ [] := by
    intro h0
    rw [h0] at hlen
    simp at hlen
  obtain ⟨perfs, hM⟩ := @mapM_option_isSome (ℕ × ℕ) StrategyPerformance
    (fun p => evalPair prices p.1 p.2) (gridPairs fr sr)
    (fun p _ => evalPair_isSome hne p.1 p.2)
  have hprops := perfs_sharpe_props hlen hM
  set out := (sortDesc perfKeyLt perfs).take 10 with hout
  have hmemPerfs : ∀ r ∈ out, r ∈ perfs := by
    intro r hr
    exact mem_sortDesc.mp (List.mem_of_mem_take hr)
  have hsorted : (sortDesc perfKeyLt perfs).Pairwise
      (fun a b => perfKeyLt a b = false) :=
    @sorted_sortDesc StrategyPerformance perfKeyLt
      (fun r => r.sharpe ≠ SharpeFloat.nan)
      (fun a b ha hb => perfKeyLt_asym ha hb)
      (fun a b c ha hb hc => perfKeyLt_negtrans ha hb hc)
      perfs
      (fun y hy => (hprops y hy).2)
  have houtSorted : out.Pairwise (fun a b => perfKeyLt a b = false) :=
    List.Pairwise.sublist (List.take_sublist _ _) hsorted
  have hT : (sortDesc perfKeyLt perfs).Pairwise
      (fun a b => (SharpeFloat.eqF a.sharpe b.sharpe = true ∧
        a.total_return = b.total_return) → perfLexLt a b) := by
    refine pairwise_sortDesc ?_
    refine ((perfs_pairwise_lex hM).imp_of_mem ?_)
    intro a b ha hb hlex
    refine ⟨fun _ => hlex, ?_⟩
    intro hKey htied
    exfalso
    rcases SharpeFloat.key_some (hprops a ha).2 with ⟨ka, hka⟩
    rcases SharpeFloat.key_some (hprops b hb).2 with ⟨kb, hkb⟩
    have hkeq : kb = ka := by
      have := eqF_keys hkb hka
      rw [htied.1] at this
      exact of_decide_eq_true this.symm
    rw [perfKeyLt_keys hka hkb, if_pos hkeq.symm, htied.2.symm] at hKey
    simp at hKey
  have houtT : out.Pairwise
      (fun a b => (SharpeFloat.eqF a.sharpe b.sharpe = true ∧
        a.total_return = b.total_return) → perfLexLt a b) :=
    List.Pairwise.sublist (List.take_sublist _ _) hT
  refine ⟨perfs, hM, ?_, List.length_take_le _ _, ?_, ?_⟩
  · rw [find_best_edges, hM]
  · intro i hi
    have hi0 : i < out.length := Nat.lt_of_succ_lt hi
    have hgetI : out.getD i default = out.get ⟨i, hi0⟩ := by
      rw [getD_eq_getElem_of_lt _ hi0, List.get_eq_getElem]
    have hgetI1 : out.getD (i + 1) default = out.get ⟨i + 1, hi⟩ := by
      rw [getD_eq_getElem_of_lt _ hi, List.get_eq_getElem]
    have hfalse : perfKeyLt (out.getD i default) (out.getD (i + 1) default) = false := by
      rw [hgetI, hgetI1]
      exact List.pairwise_iff_get.mp houtSorted ⟨i, hi0⟩ ⟨i + 1, hi⟩ (Nat.lt_succ_self i)
    have hmemA : out.getD i default ∈ perfs :=
      hmemPerfs _ (getD_mem_of_lt _ hi0 _)
    have hmemB : out.getD (i + 1) default ∈ perfs :=
      hmemPerfs _ (getD_mem_of_lt _ hi _)
    rcases SharpeFloat.exists_mv (hprops _ hmemA).1 (hprops _ hmemA).2
      with ⟨m₁, v₁, hv₁, hk₁, hr₁⟩
    rcases SharpeFloat.exists_mv (hprops _ hmemB).1 (hprops _ hmemB).2
      with ⟨m₂, v₂, hv₂, hk₂, hr₂⟩
    rw [perfKeyLt_false_iff hk₁ hk₂] at hfalse
    refine ⟨Real.sqrt 252 * (m₁ : ℝ) / Real.sqrt (v₁ : ℝ),
      Real.sqrt 252 * (m₂ : ℝ) / Real.sqrt (v₂ : ℝ), hr₁, hr₂, ?_⟩
    rcases hfalse with hlt2 | ⟨heq2, hle2⟩
    · exact Or.inl ((sharpeReal_lt_iff m₂ v₂ m₁ v₁ hv₂ hv₁).mpr hlt2)
    · exact Or.inr ⟨(sharpeReal_eq_iff m₁ v₁ m₂ v₂ hv₁ hv₂).mpr heq2, hle2⟩
  · intro i j hij hj heqF htr
    have hi0 : i < out.length := lt_trans hij hj
    have hgetI : out.getD i default = out.get ⟨i, hi0⟩ := by
      rw [getD_eq_getElem_of_lt _ hi0, List.get_eq_getElem]
    have hgetJ : out.getD j default = out.get ⟨j, hj⟩ := by
      rw [getD_eq_getElem_of_lt _ hj, List.get_eq_getElem]
    have := List.pairwise_iff_get.mp houtT ⟨i, hi0⟩ ⟨j, hj⟩ hij
    rw [hgetI, hgetJ]
    rw [hgetI, hgetJ] at heqF htr
    exact this ⟨heqF, htr⟩

/-- Witness for C2 at `prices = [1, 2, 4]`, ranges `(1,1)` and `(2,2)`. -/
theorem c2_ranking_witness :
    ∃ perfs,
      (gridPairs (1, 1) (2, 2)).mapM (fun p => evalPair [1, 2, 4] p.1 p.2) = some perfs ∧
      find_best_edges [1, 2, 4] (1, 1) (2, 2) =
        some ((sortDesc perfKeyLt perfs).take 10) ∧
      ((sortDesc perfKeyLt perfs).take 10).length ≤ 10 ∧
      (∀ i, i + 1 < ((sortDesc perfKeyLt perfs).take 10).length →
        ∃ x y : ℝ,
          (((sortDesc perfKeyLt perfs).take 10).getD i default).sharpe.toReal = some x ∧
          (((sortDesc perfKeyLt perfs).take 10).getD (i + 1) default).sharpe.toReal = some y ∧
          (y < x ∨ (x = y ∧
            (((sortDesc perfKeyLt perfs).take 10).getD (i + 1) default).total_return ≤
              (((sortDesc perfKeyLt perfs).take 10).getD i default).total_return))) ∧
      (∀ i j, i < j → j < ((sortDesc perfKeyLt perfs).take 10).length →
        SharpeFloat.eqF (((sortDesc perfKeyLt perfs).take 10).getD i default).sharpe
          (((sortDesc perfKeyLt perfs).take 10).getD j default).sharpe = true →
        (((sortDesc perfKeyLt perfs).take 10).getD i default).total_return =
          (((sortDesc perfKeyLt perfs).take 10).getD j default).total_return →
        perfLexLt (((sortDesc perfKeyLt perfs).take 10).getD i default)
          (((sortDesc perfKeyLt perfs).take 10).getD j default)) :=
  c2_ranking [1, 2, 4] (1, 1) (2, 2) (by decide) (by decide)

set_option maxHeartbeats 2000000 in
/-- C2 counterexample to the claim as stated: for the positive price
series `[1]` (too short for the Sharpe denominator to exist) both grid
results carry a NaN sharpe, every float comparison with NaN is false, so
for the two adjacent returned results neither `r[0].sharpe > r[1].sharpe`
nor `r[0].sharpe == r[1].sharpe` holds — the claimed adjacent
monotonicity fails. -/
theorem c2_counterexample :
    find_best_edges [1] (1, 1) (2, 3) =
      some [{ fast_period := 1, slow_period := 2, total_return := 0,
              sharpe := SharpeFloat.nan, equity := [1] },
            { fast_period := 1, slow_period := 3, total_return := 0,
              sharpe := SharpeFloat.nan, equity := [1] }] ∧
    SharpeFloat.ltF SharpeFloat.nan SharpeFloat.nan = false ∧
    SharpeFloat.eqF SharpeFloat.nan SharpeFloat.nan = false := by
  refine ⟨?_, rfl, rfl⟩
  norm_num [find_best_edges, gridPairs, evalPair, backtest_signals,
    moving_average_crossover_signals, crossUp, crossDown, movingAverage,
    optGtB, optLtB, optLeB, optGeB, pct_change, cumprod, cumprodAux,
    compute_performance, equityReturns, sampleVariance, seriesMean,
    sortDesc, insertDesc, SharpeFloat.ltF, SharpeFloat.eqF, SharpeFloat.key,
    perfKeyLt, List.range_succ, List.range', List.mapM.loop]
